import Mathlib

/-!
Verification of the gowal segmented write-ahead log against its design
specification.

The Go source is shallowly embedded: the record struct, the two in-memory
index maps, the facade state and its operations (Write, Get, CurrentIndex,
Iterator, WriteTombstone), the rotation and eviction routines, and the
segment loader are translated into executable Lean definitions.  Go maps
from uint64 to records become association lists with overwrite-on-insert;
strings and byte slices become byte lists; uint64 and uint32 arithmetic is
carried out on Nat with explicit reduction mod 2 ^ 64 or mod 2 ^ 32 at the
points where the machine type can wrap.  File handles, paths and the gob
buffer are I/O plumbing and are not part of the model; the segment
directory is modelled as the list of live segment files, each an ordinal
paired with the records appended to it.
-/

namespace Gowal

/-- Models the Go record struct (src/unnamed/part_000 lines 8-13): a
caller-supplied uint64 index, key bytes, value bytes, and the embedded
CRC-32 checksum field. -/
structure Msg where
  Idx : Nat
  Key : List Nat
  Value : List Nat
  Checksum : Nat
deriving DecidableEq, Repr

/-- The reflected form of the CRC-32 IEEE polynomial, as used by the
hash/crc32 package behind crc32.NewIEEE. -/
def crcPoly : Nat := 0xEDB88320

/-- One bit step of the reflected CRC-32 computation: shift right, folding
in the polynomial when the low bit is set. -/
def crcBit (c : Nat) : Nat :=
  if c % 2 = 1 then (c / 2) ^^^ crcPoly else c / 2

/-- Absorb a single input byte into the CRC state (the byte is reduced
mod 256, as the Go byte type guarantees). -/
def crcByteStep (c b : Nat) : Nat :=
  crcBit (crcBit (crcBit (crcBit (crcBit (crcBit (crcBit (crcBit (c ^^^ (b % 256)))))))))

/-- Running update of the CRC state over a byte list: models a sequence of
Hash32.Write calls on one hasher. -/
def crcUpdate (c : Nat) (bs : List Nat) : Nat :=
  bs.foldl crcByteStep c

/-- CRC-32 (IEEE) of a byte sequence: all-ones initial state, reflected
per-byte updates, final complement.  This is the spec-side definition of
the §3 record checksum, applied below to the canonical concatenation. -/
def crc32IEEE (bs : List Nat) : Nat :=
  crcUpdate 0xFFFFFFFF bs ^^^ 0xFFFFFFFF

/-- The standard CRC-32 check input, the ASCII bytes of 123456789. -/
def crcCheckBytes : List Nat := [49, 50, 51, 52, 53, 54, 55, 56, 57]

/-- The 8 little-endian bytes of an index, as built by the loop in
calculateChecksum (src/unnamed/part_000 lines 23-27):
byte i is Idx shifted right by 8 * i, truncated to a byte. -/
def idxLEBytes (idx : Nat) : List Nat :=
  (List.range 8).map (fun i => idx / 256 ^ i % 256)

/-- calculateChecksum (src/unnamed/part_000 lines 20-37): a fresh IEEE
hasher absorbs the 8 little-endian index bytes, then the key bytes, then
the value bytes, and Sum32 finalizes.  The Checksum field is never fed to
the hasher. -/
def Msg.calculateChecksum (m : Msg) : Nat :=
  crcUpdate (crcUpdate (crcUpdate 0xFFFFFFFF (idxLEBytes m.Idx)) m.Key) m.Value ^^^ 0xFFFFFFFF

/-- verifyChecksum (src/unnamed/part_000 lines 40-46): recompute the
checksum of a copy holding only Idx, Key and Value and compare it with the
stored field; true models the nil-error (verification passed) outcome. -/
def Msg.verifyChecksum (m : Msg) : Bool :=
  m.Checksum == (Msg.mk m.Idx m.Key m.Value 0).calculateChecksum

/-- An in-memory index, the Go map from uint64 to records: an association
list where lookup returns the first binding, insertion overwrites an
existing binding in place, and erasure drops the binding. -/
abbrev IndexMap := List (Nat × Msg)

/-- Go map read m[k]. -/
def mapLookup : IndexMap → Nat → Option Msg
  | [], _ => none
  | e :: es, k => if e.1 = k then some e.2 else mapLookup es k

/-- Go map assignment m[k] = v: overwrite the binding for k when present,
otherwise add a new one. -/
def mapInsert : IndexMap → Nat → Msg → IndexMap
  | [], k, v => [(k, v)]
  | e :: es, k, v => if e.1 = k then (k, v) :: es else e :: mapInsert es k v

/-- Go delete(m, k). -/
def mapErase (m : IndexMap) (k : Nat) : IndexMap :=
  m.filter (fun e => !(e.1 == k))

/-- maps.Copy dst src, and the merge loop of Iterator: every binding of
the second map is written into the first, overriding equal keys. -/
def mapUnion (a b : IndexMap) : IndexMap :=
  b.foldl (fun acc e => mapInsert acc e.1 e.2) a

/-- The Wal facade state (src/unnamed/part_003 lines 26-67), restricted to
the fields the verified claims speak about.  The file descriptors, the gob
buffer and encoder, the directory path and the last-offset cursor are I/O
plumbing with no bearing on the claims; the directory is modelled by the
files field: the live segment files, each an ordinal paired with the
records appended to it in order. -/
structure WalState where
  index : IndexMap
  tmpIndex : IndexMap
  lastIndex : Nat
  segmentsNumber : Nat
  files : List (Nat × List Msg)
  segmentsThreshold : Nat
  maxSegments : Nat
deriving DecidableEq, Repr

/-- oldestSegmentName (src/segment.go lines 60-66, src/unnamed/part_007
lines 55-62): the ordinal segmentsNumber - maxSegments, clamped at zero
exactly as Nat subtraction does. -/
def oldestSegmentOrdinal (s : WalState) : Nat :=
  s.segmentsNumber - s.maxSegments

/-- removeOldestSegment (src/segment.go lines 18-32, src/unnamed/part_007
lines 17-31): unlink the oldest segment file and its sidecar, then replace
the whole in-memory index with tmpIndex and reset tmpIndex to empty. -/
def removeOldestSegment (s : WalState) : WalState :=
  { s with files := s.files.filter (fun f => !(f.1 == oldestSegmentOrdinal s)),
           index := s.tmpIndex,
           tmpIndex := [] }

/-- openNewSegment (src/segment.go lines 34-57): create the segment file
whose ordinal is the current segmentsNumber, then increment segmentsNumber
and reset the write offset of the new, empty active segment. -/
def openNewSegment (s : WalState) : WalState :=
  { s with files := s.files ++ [(s.segmentsNumber, [])],
           segmentsNumber := s.segmentsNumber + 1 }

/-- Modelled from the spec: the zero-argument rotateIfNeeded that Write
calls at src/unnamed/part_003 line 174 has no definition under src
(src/rotate.go holds only a superseded draft with signature
rotateIfNeeded(index, key, value) keyed on len(index)).  Following spec
§4.5: rotation happens exactly when the record count of the active
segment, the size of tmpIndex, has reached segments_threshold; the oldest
segment is evicted (the src removeOldestSegment above) when
segments_number has reached max_segments, otherwise tmpIndex is merged
into index and emptied; finally the next segment is opened. -/
def rotateIfNeeded (s : WalState) : WalState :=
  if s.segmentsThreshold ≤ s.tmpIndex.length then
    openNewSegment
      (if s.maxSegments ≤ s.segmentsNumber then removeOldestSegment s
       else { s with index := mapUnion s.index s.tmpIndex, tmpIndex := [] })
  else s

/-- Append one encoded record to the active segment file, the file whose
ordinal is segmentsNumber - 1 (the c.log.Write(data) call). -/
def appendActive (s : WalState) (m : Msg) : WalState :=
  { s with files := s.files.map (fun f =>
      if f.1 = s.segmentsNumber - 1 then (f.1, f.2 ++ [m]) else f) }

/-- The error outcomes the modelled operations surface. -/
inductive WalErr where
  | errExists
  | errDecode
  | errChecksum
deriving DecidableEq, Repr

/-- Write (src/unnamed/part_003 lines 166-212): reject with ErrExists when
idx is bound in the main index; otherwise run the rotation check, append
the encoded record to the active segment, bump lastIndex by one (the
atomic Add(1), wrapping mod 2 ^ 64) and bind the record in tmpIndex.  The
per-file sidecar checksum written by part_003 is not a record field, so
the record carries the Go zero value 0 there. -/
def Write (s : WalState) (idx : Nat) (key value : List Nat) : Except WalErr WalState :=
  if (mapLookup s.index idx).isSome then Except.error WalErr.errExists
  else
    let m : Msg := Msg.mk idx key value 0
    let s1 := appendActive (rotateIfNeeded s) m
    Except.ok { s1 with lastIndex := (s1.lastIndex + 1) % 2 ^ 64,
                        tmpIndex := mapInsert s1.tmpIndex idx m }

/-- Get (src/unnamed/part_003 lines 141-156): consult the main index
first, then the temporary index of the active segment. -/
def Get (s : WalState) (idx : Nat) : Option (List Nat × List Nat) :=
  match mapLookup s.index idx with
  | some m => some (m.Key, m.Value)
  | none =>
    match mapLookup s.tmpIndex idx with
    | some m => some (m.Key, m.Value)
    | none => none

/-- CurrentIndex (src/unnamed/part_003 lines 160-163): the stored
lastIndex counter. -/
def CurrentIndex (s : WalState) : Nat :=
  s.lastIndex

/-- Insert one record into a list sorted ascending by Idx, keeping it
sorted: the elementary step of the sort Iterator performs. -/
def insertByIdx (m : Msg) : List Msg → List Msg
  | [] => [m]
  | x :: xs => if m.Idx ≤ x.Idx then m :: x :: xs else x :: insertByIdx m xs

/-- Sort a record list ascending by Idx.  part_003 uses slices.SortFunc
comparing Idx; on records with pairwise distinct Idx, the case the claims
quantify over, every correct comparison sort returns this same list. -/
def sortByIdx (l : List Msg) : List Msg :=
  l.foldr insertByIdx []

/-- Iterator (src/unnamed/part_003 lines 218-252): merge index and
tmpIndex into one map, copy the records out, sort ascending by Idx and
yield them in that order. -/
def Iterator (s : WalState) : List Msg :=
  sortByIdx ((mapUnion s.index s.tmpIndex).map Prod.snd)

/-- The lastIndex recomputation NewWAL performs after loading segments
(src/unnamed/part_003 lines 116-123): the maximum Idx over all records the
iterator yields, 0 when there are none. -/
def recoveredLastIndex (s : WalState) : Nat :=
  (Iterator s).foldl (fun acc v => if acc < v.Idx then v.Idx else acc) 0

/-- The state NewWAL returns for an empty directory (src/unnamed/part_003
lines 88-126): empty indices, one empty segment file with ordinal 0,
segmentsNumber 1, lastIndex 0. -/
def freshState (thr maxSeg : Nat) : WalState :=
  WalState.mk [] [] 0 1 [(0, [])] thr maxSeg

/-- The UTF-8 bytes of the literal tombstone value. -/
def tombstoneBytes : List Nat :=
  [116, 111, 109, 98, 115, 116, 111, 110, 101]

/-- Modelled from the spec: WriteTombstone has no implementation under src
(only its tests, TestWriteTombstone in src/unnamed/part_004 lines 318-420
and part_005 lines 296-394, which exercise it).  Following spec §4.7: look
the record up first in tmpIndex, then in index; when absent return success
with no I/O and no state change; otherwise build a record with the same
key, the literal tombstone value and the same idx, recompute its checksum,
run the rotation check, append to the active segment, and then remove idx
from index and bind the tombstone in tmpIndex. -/
def WriteTombstone (s : WalState) (idx : Nat) : Except WalErr WalState :=
  match (mapLookup s.tmpIndex idx).orElse (fun _ => mapLookup s.index idx) with
  | none => Except.ok s
  | some old =>
    let m : Msg := Msg.mk idx old.Key tombstoneBytes
      (Msg.calculateChecksum (Msg.mk idx old.Key tombstoneBytes 0))
    let s1 := appendActive (rotateIfNeeded s) m
    Except.ok { s1 with index := mapErase s1.index idx,
                        tmpIndex := mapInsert s1.tmpIndex idx m }

/-- How the decode loop over a segment's byte contents terminates: clean
io.EOF, a gob decode failure on garbage bytes, or a truncated trailing
record (io.ErrUnexpectedEOF). -/
inductive DecodeTail where
  | eof
  | badRecord
  | truncated
deriving DecidableEq, Repr

/-- A segment file abstracted to what the codec and the sidecar checksum
comparison observe of its byte contents: the records the stream yields
before terminating, how it terminates, and whether compareChecksums
succeeds on the raw bytes. -/
structure SegmentData where
  records : List Msg
  tail : DecodeTail
  checksumOk : Bool
deriving DecidableEq, Repr

/-- loadIndexes (src/segment.go lines 247-278): decode records until the
stream ends; any termination other than clean EOF aborts with an error
before any index map is returned; on clean EOF the index is built from all
decoded records, keyed by their Idx field. -/
def loadIndexes (d : SegmentData) : Except WalErr IndexMap :=
  match d.tail with
  | DecodeTail.eof =>
      Except.ok (d.records.foldl (fun acc v => mapInsert acc v.Idx v) [])
  | _ => Except.error WalErr.errDecode

/-- loadSegment (src/segment.go lines 110-136): compare the sidecar
checksum first, failing the whole load on a mismatch, then build the index
with loadIndexes; every failure is fatal for the load. -/
def loadSegment (d : SegmentData) : Except WalErr IndexMap :=
  if d.checksumOk then loadIndexes d else Except.error WalErr.errChecksum

/-- The states reachable from a fresh open by successful writes, including
tombstone writes (each runs the same rotation check).  The constraints on
the configuration are the spec's §6 contract: segments_threshold ≥ 1 and
max_segments ≥ 1. -/
inductive Reachable : WalState → Prop
  | init (thr maxSeg : Nat) (hthr : 1 ≤ thr) (hmax : 1 ≤ maxSeg) :
      Reachable (freshState thr maxSeg)
  | write {s t : WalState} (idx : Nat) (key value : List Nat)
      (hr : Reachable s) (hw : Write s idx key value = Except.ok t) : Reachable t
  | tombstone {s t : WalState} (idx : Nat)
      (hr : Reachable s) (hw : WriteTombstone s idx = Except.ok t) : Reachable t

/-- Every binding of the map stores a record whose Idx field equals its
key. -/
abbrev IdxOkMap (m : IndexMap) : Prop :=
  ∀ p ∈ m, p.2.Idx = p.1

/-- The keys of the map are pairwise distinct. -/
abbrev keysNodup (m : IndexMap) : Prop :=
  (m.map Prod.fst).Nodup

/-- The state the some-branch of WriteTombstone produces when the located
record has the given key: the tombstone record is appended to the active
segment after the rotation check, the index loses the binding for idx and
tmpIndex gains the tombstone. -/
def tombstoneResult (s : WalState) (idx : Nat) (key : List Nat) : WalState :=
  let M := Msg.mk idx key tombstoneBytes
    (Msg.calculateChecksum (Msg.mk idx key tombstoneBytes 0))
  let s1 := appendActive (rotateIfNeeded s) M
  { s1 with index := mapErase s1.index idx,
            tmpIndex := mapInsert s1.tmpIndex idx M }

/-- The concrete key bytes used by the evaluated scenarios. -/
def keyBytes : List Nat := [107, 101, 121]

/-- The concrete value bytes used by the evaluated scenarios. -/
def valBytes : List Nat := [118, 97, 108]

/-- The record Write builds for index 5 with those bytes. -/
def rec5 : Msg := Msg.mk 5 keyBytes valBytes 0

/-- The state after one successful Write of index 5 on a fresh log with
segments_threshold 10 and max_segments 5. -/
def afterFirstWrite : WalState :=
  WalState.mk [] [(5, rec5)] 1 1 [(0, [rec5])] 10 5

/-- The state after a second Write of the same index 5: the record was
appended to the segment file again and lastIndex was bumped again. -/
def afterSecondWrite : WalState :=
  WalState.mk [] [(5, rec5)] 2 1 [(0, [rec5, rec5])] 10 5

/-- A record with index 10 that lives in closed segment 1 of the eviction
scenario. -/
def recInSeg1 : Msg := Msg.mk 10 [97] [65] 0

/-- A record with index 20 that lives in the active segment of the
eviction scenario. -/
def recActive : Msg := Msg.mk 20 [98] [66] 0

/-- A log state about to evict: segments 0 through 4 are on disk,
segmentsNumber is 5 and max_segments is 5, so the eviction target is
ordinal 0; the in-memory index holds the record of closed segment 1 and
tmpIndex holds the record of the active segment 4. -/
def evictionState : WalState :=
  WalState.mk [(10, recInSeg1)] [(20, recActive)] 20 5
    [(0, []), (1, [recInSeg1]), (2, []), (3, []), (4, [recActive])] 1 5

/-- A segment whose byte stream ends in a truncated trailing record while
its sidecar checksum still matches. -/
def truncatedSegment : SegmentData :=
  SegmentData.mk [recInSeg1] DecodeTail.truncated true

/-- The record at index 3 used by the tombstone scenario. -/
def rec3 : Msg := Msg.mk 3 keyBytes valBytes 0

/-- A log state holding one record at index 3 in the active segment. -/
def tombStartState : WalState :=
  WalState.mk [] [(3, rec3)] 1 1 [(0, [rec3])] 10 5

/-- A log state with two records in the main index and one in tmpIndex,
used to evaluate the iterator. -/
def iterState : WalState :=
  WalState.mk [(7, Msg.mk 7 [97] [65] 0), (2, Msg.mk 2 [98] [66] 0)]
    [(4, Msg.mk 4 [99] [67] 0)] 7 1 [(0, [])] 10 5

/-- The inductive invariant carried along reachable states: the
configuration cap is positive, at least one segment was ever created, the
ordinals of the live files form exactly the contiguous window of width
min(segments_number, max_segments) ending at segments_number - 1, and both
in-memory maps key every record by its Idx field. -/
def Inv (s : WalState) : Prop :=
  1 ≤ s.maxSegments ∧ 1 ≤ s.segmentsNumber ∧
  s.files.map Prod.fst =
    List.range' (s.segmentsNumber - s.maxSegments)
      (min s.segmentsNumber s.maxSegments) ∧
  IdxOkMap s.index ∧ IdxOkMap s.tmpIndex

/-- Splitting a CRC update over an appended byte sequence gives the two
sequential updates of one hasher absorbing two writes. -/
theorem crcUpdate_append (c : Nat) (a b : List Nat) :
    crcUpdate c (a ++ b) = crcUpdate (crcUpdate c a) b := by
  simp [crcUpdate, List.foldl_append]

set_option maxRecDepth 4096 in
/-- The CRC-32 model meets the standard check value: the CRC of the ASCII
bytes of 123456789 is 0xCBF43926. -/
theorem crc32IEEE_check : crc32IEEE crcCheckBytes = 0xCBF43926 := by decide

/-- A lookup misses exactly when the key is not among the map's keys. -/
theorem mapLookup_eq_none (m : IndexMap) (k : Nat) :
    mapLookup m k = none ↔ k ∉ m.map Prod.fst := by
  induction m with
  | nil => simp [mapLookup]
  | cons e es ih =>
    by_cases h : e.1 = k
    · simp [mapLookup, h]
    · simp [mapLookup, h, ih, Ne.symm h]

/-- Inserting a fresh key appends the binding at the end. -/
theorem mapInsert_of_lookup_none (m : IndexMap) (k : Nat) (v : Msg)
    (h : mapLookup m k = none) : mapInsert m k v = m ++ [(k, v)] := by
  induction m with
  | nil => rfl
  | cons e es ih =>
    rw [mapLookup] at h
    by_cases he : e.1 = k
    · simp [he] at h
    · simp [he] at h
      simp [mapInsert, he, ih h]

/-- Looking up a key absent from the first map falls through to the
second. -/
theorem mapLookup_append_of_none (m n : IndexMap) (k : Nat)
    (h : mapLookup m k = none) : mapLookup (m ++ n) k = mapLookup n k := by
  induction m with
  | nil => rfl
  | cons e es ih =>
    rw [mapLookup] at h
    by_cases he : e.1 = k
    · simp [he] at h
    · simp [he] at h
      simp [mapLookup, he, ih h]

/-- Every binding of an insertion result is either the fresh binding or an
original one. -/
theorem mem_mapInsert {p : Nat × Msg} (m : IndexMap) (k : Nat) (v : Msg) :
    p ∈ mapInsert m k v → p = (k, v) ∨ p ∈ m := by
  induction m with
  | nil => intro h; simp [mapInsert] at h; exact Or.inl h
  | cons e es ih =>
    intro h
    by_cases he : e.1 = k
    · simp [mapInsert, he] at h
      rcases h with h | h
      · exact Or.inl h
      · exact Or.inr (List.mem_cons_of_mem e h)
    · simp only [mapInsert, if_neg he, List.mem_cons] at h
      rcases h with h | h
      · exact Or.inr (List.mem_cons.mpr (Or.inl h))
      · rcases ih h with h' | h'
        · exact Or.inl h'
        · exact Or.inr (List.mem_cons_of_mem e h')

/-- Map insertion preserves the key-matches-Idx property when the inserted
record matches its key. -/
theorem idxOk_mapInsert {m : IndexMap} {k : Nat} {v : Msg}
    (hm : IdxOkMap m) (hv : v.Idx = k) : IdxOkMap (mapInsert m k v) := by
  intro p hp
  rcases mem_mapInsert m k v hp with h | h
  · rw [h]; exact hv
  · exact hm p h

/-- Merging two key-consistent maps stays key-consistent. -/
theorem idxOk_mapUnion (b : IndexMap) :
    ∀ a, IdxOkMap a → IdxOkMap b → IdxOkMap (mapUnion a b) := by
  induction b with
  | nil => intro a ha _; exact ha
  | cons q qs ih =>
    intro a ha hb
    exact ih (mapInsert a q.1 q.2)
      (idxOk_mapInsert ha (hb q (List.mem_cons_self q qs)))
      (fun p hp => hb p (List.mem_cons_of_mem q hp))

/-- Erasure preserves the key-matches-Idx property. -/
theorem idxOk_mapErase {m : IndexMap} (hm : IdxOkMap m) (k : Nat) :
    IdxOkMap (mapErase m k) := by
  intro p hp
  exact hm p (List.mem_of_mem_filter hp)

/-- When the second map's keys are fresh for the first and pairwise
distinct, the merge is plain concatenation. -/
theorem mapUnion_eq_append (b : IndexMap) :
    ∀ a, keysNodup b → (∀ q ∈ b, mapLookup a q.1 = none) →
      mapUnion a b = a ++ b := by
  induction b with
  | nil => intro a _ _; simp [mapUnion]
  | cons q qs ih =>
    intro a hnd hdisj
    simp only [keysNodup, List.map_cons, List.nodup_cons] at hnd
    have hq : mapLookup a q.1 = none := hdisj q (List.mem_cons_self q qs)
    have hqs : ∀ r ∈ qs, mapLookup (a ++ [q]) r.1 = none := by
      intro r hr
      rw [mapLookup_append_of_none a [q] r.1 (hdisj r (List.mem_cons_of_mem q hr))]
      have hne : q.1 ≠ r.1 := by
        intro hcontra
        exact hnd.1 (hcontra ▸ List.mem_map_of_mem Prod.fst hr)
      simp [mapLookup, hne]
    have step : mapUnion a (q :: qs) = mapUnion (a ++ [q]) qs := by
      simp [mapUnion, mapInsert_of_lookup_none a q.1 q.2 hq]
    rw [step, ih (a ++ [q]) hnd.2 hqs, List.append_assoc, List.singleton_append]

/-- Members of a sorted insertion are the inserted record or members of
the original list. -/
theorem mem_insertByIdx {y m : Msg} (l : List Msg) :
    y ∈ insertByIdx m l → y = m ∨ y ∈ l := by
  induction l with
  | nil => intro h; simp [insertByIdx] at h; exact Or.inl h
  | cons x xs ih =>
    intro h
    by_cases hle : m.Idx ≤ x.Idx
    · simp only [insertByIdx, if_pos hle, List.mem_cons] at h
      rcases h with h | h
      · exact Or.inl h
      · exact Or.inr (List.mem_cons.mpr h)
    · simp only [insertByIdx, if_neg hle, List.mem_cons] at h
      rcases h with h | h
      · exact Or.inr (List.mem_cons.mpr (Or.inl h))
      · rcases ih h with h' | h'
        · exact Or.inl h'
        · exact Or.inr (List.mem_cons_of_mem x h')

/-- Sorted insertion is a permutation of plain consing. -/
theorem perm_insertByIdx (m : Msg) (l : List Msg) :
    (insertByIdx m l).Perm (m :: l) := by
  induction l with
  | nil => exact List.Perm.refl _
  | cons x xs ih =>
    by_cases hle : m.Idx ≤ x.Idx
    · simp only [insertByIdx, if_pos hle]
      exact List.Perm.refl _
    · simp only [insertByIdx, if_neg hle]
      exact List.Perm.trans (List.Perm.cons x ih) (List.Perm.swap m x xs)

/-- The sort performed by Iterator permutes its input. -/
theorem perm_sortByIdx (l : List Msg) : (sortByIdx l).Perm l := by
  induction l with
  | nil => exact List.Perm.refl _
  | cons x xs ih =>
    exact List.Perm.trans (perm_insertByIdx x (sortByIdx xs)) (List.Perm.cons x ih)

/-- Sorted insertion preserves being sorted by Idx. -/
theorem pairwise_insertByIdx (m : Msg) {l : List Msg}
    (h : l.Pairwise (fun a b => a.Idx ≤ b.Idx)) :
    (insertByIdx m l).Pairwise (fun a b => a.Idx ≤ b.Idx) := by
  induction l with
  | nil => simp [insertByIdx]
  | cons x xs ih =>
    have hx := List.pairwise_cons.mp h
    by_cases hle : m.Idx ≤ x.Idx
    · simp only [insertByIdx, if_pos hle]
      refine List.Pairwise.cons ?_ h
      intro y hy
      rcases List.mem_cons.mp hy with rfl | hmem
      · exact hle
      · exact Nat.le_trans hle (hx.1 y hmem)
    · simp only [insertByIdx, if_neg hle]
      refine List.Pairwise.cons ?_ (ih hx.2)
      intro y hy
      rcases mem_insertByIdx xs hy with rfl | hmem
      · exact Nat.le_of_not_le hle
      · exact hx.1 y hmem

/-- The sort performed by Iterator returns a list sorted by Idx. -/
theorem pairwise_sortByIdx (l : List Msg) :
    (sortByIdx l).Pairwise (fun a b => a.Idx ≤ b.Idx) := by
  induction l with
  | nil => simp [sortByIdx]
  | cons x xs ih => exact pairwise_insertByIdx x ih

/-- Filtering file entries by ordinal commutes with projecting the
ordinals. -/
theorem filter_files_fst (l : List (Nat × List Msg)) (a : Nat) :
    (l.filter (fun f => !(f.1 == a))).map Prod.fst =
      (l.map Prod.fst).filter (fun x => !(x == a)) := by
  induction l with
  | nil => rfl
  | cons e es ih =>
    by_cases h : e.1 = a <;> simp [List.filter_cons, h, ih]

/-- Appending a record to the active segment file does not change the set
of file ordinals. -/
theorem appendActive_files_fst (s : WalState) (m : Msg) :
    (appendActive s m).files.map Prod.fst = s.files.map Prod.fst := by
  simp only [appendActive, List.map_map]
  apply List.map_congr_left
  intro f _
  by_cases h : f.1 = s.segmentsNumber - 1 <;> simp [h]

/-- Dropping the first ordinal of a contiguous window leaves the shifted
window. -/
theorem range'_filter_head (a n : Nat) (hn : 1 ≤ n) :
    (List.range' a n).filter (fun x => !(x == a)) = List.range' (a + 1) (n - 1) := by
  obtain ⟨k, rfl⟩ : ∃ k, n = k + 1 := ⟨n - 1, (Nat.succ_pred_eq_of_pos hn).symm⟩
  have htail : (List.range' (a + 1) k).filter (fun x => !(x == a)) =
      List.range' (a + 1) k := by
    apply List.filter_eq_self.mpr
    intro x hx
    have := List.mem_range'_1.mp hx
    simp only [Bool.not_eq_true', beq_eq_false_iff_ne, ne_eq]
    omega
  rw [List.range'_succ]
  simp [List.filter_cons, htail]

/-- Erasing a key removes its binding. -/
theorem mapLookup_mapErase_self (m : IndexMap) (k : Nat) :
    mapLookup (mapErase m k) k = none := by
  induction m with
  | nil => rfl
  | cons e es ih =>
    by_cases he : e.1 = k
    · simpa [mapErase, List.filter_cons, he] using ih
    · simpa [mapErase, List.filter_cons, he, mapLookup] using ih

/-- Insertion binds the key to the inserted record. -/
theorem mapLookup_mapInsert_self (m : IndexMap) (k : Nat) (v : Msg) :
    mapLookup (mapInsert m k v) k = some v := by
  induction m with
  | nil => simp [mapInsert, mapLookup]
  | cons e es ih =>
    by_cases he : e.1 = k
    · simp [mapInsert, he, mapLookup]
    · simp [mapInsert, he, mapLookup, ih]

/-- A fresh open satisfies the invariant. -/
theorem inv_freshState {thr maxSeg : Nat} (_hthr : 1 ≤ thr) (hmax : 1 ≤ maxSeg) :
    Inv (freshState thr maxSeg) := by
  refine ⟨hmax, Nat.le_refl 1, ?_, ?_, ?_⟩
  · show [(0, ([] : List Msg))].map Prod.fst = List.range' (1 - maxSeg) (min 1 maxSeg)
    rw [Nat.sub_eq_zero_of_le hmax, Nat.min_eq_left hmax]
    rfl
  · intro p hp; exact absurd hp (List.not_mem_nil p)
  · intro p hp; exact absurd hp (List.not_mem_nil p)

/-- The rotation check preserves the invariant. -/
theorem inv_rotateIfNeeded {s : WalState} (h : Inv s) : Inv (rotateIfNeeded s) := by
  obtain ⟨hmax, hseg, hfiles, hidx, htmp⟩ := h
  unfold rotateIfNeeded
  by_cases hthr : s.segmentsThreshold ≤ s.tmpIndex.length
  · rw [if_pos hthr]
    by_cases hev : s.maxSegments ≤ s.segmentsNumber
    · rw [if_pos hev]
      refine ⟨hmax, Nat.le_succ_of_le hseg, ?_, htmp, ?_⟩
      · show ((s.files.filter (fun f => !(f.1 == oldestSegmentOrdinal s))) ++
            [(s.segmentsNumber, ([] : List Msg))]).map Prod.fst =
          List.range' (s.segmentsNumber + 1 - s.maxSegments)
            (min (s.segmentsNumber + 1) s.maxSegments)
        rw [List.map_append, filter_files_fst, hfiles]
        rw [Nat.min_eq_right hev, oldestSegmentOrdinal, range'_filter_head _ _ hmax]
        rw [Nat.min_eq_right (Nat.le_succ_of_le hev)]
        have e2 : s.segmentsNumber + 1 - s.maxSegments =
            (s.segmentsNumber - s.maxSegments) + 1 := by omega
        rw [e2]
        have e3 : ([(s.segmentsNumber, ([] : List Msg))]).map Prod.fst =
            [s.segmentsNumber] := rfl
        rw [e3]
        have e5 := List.range'_1_concat
          (s.segmentsNumber - s.maxSegments + 1) (s.maxSegments - 1)
        rw [Nat.sub_add_cancel hmax] at e5
        have e6 : s.segmentsNumber - s.maxSegments + 1 + (s.maxSegments - 1) =
            s.segmentsNumber := by omega
        rw [e6] at e5
        exact e5.symm
      · intro p hp; exact absurd hp (List.not_mem_nil p)
    · rw [if_neg hev]
      have hlt : s.segmentsNumber < s.maxSegments := Nat.lt_of_not_le hev
      refine ⟨hmax, Nat.le_succ_of_le hseg, ?_,
        idxOk_mapUnion s.tmpIndex s.index hidx htmp, ?_⟩
      · show (s.files ++ [(s.segmentsNumber, ([] : List Msg))]).map Prod.fst =
          List.range' (s.segmentsNumber + 1 - s.maxSegments)
            (min (s.segmentsNumber + 1) s.maxSegments)
        rw [List.map_append, hfiles]
        rw [Nat.sub_eq_zero_of_le (Nat.le_of_lt hlt),
          Nat.min_eq_left (Nat.le_of_lt hlt),
          Nat.sub_eq_zero_of_le hlt, Nat.min_eq_left hlt]
        have e3 : ([(s.segmentsNumber, ([] : List Msg))]).map Prod.fst =
            [s.segmentsNumber] := rfl
        rw [e3]
        have := List.range'_1_concat 0 s.segmentsNumber
        rw [this]
        simp
      · intro p hp; exact absurd hp (List.not_mem_nil p)
  · rw [if_neg hthr]
    exact ⟨hmax, hseg, hfiles, hidx, htmp⟩

/-- A successful Write preserves the invariant. -/
theorem inv_Write {s t : WalState} {idx : Nat} {key value : List Nat}
    (h : Inv s) (hw : Write s idx key value = Except.ok t) : Inv t := by
  unfold Write at hw
  by_cases hex : (mapLookup s.index idx).isSome
  · rw [if_pos hex] at hw
    simp at hw
  · rw [if_neg hex] at hw
    simp only [Except.ok.injEq] at hw
    subst hw
    obtain ⟨hmax, hseg, hfiles, hidx2, htmp⟩ := inv_rotateIfNeeded h
    exact ⟨hmax, hseg, (appendActive_files_fst (rotateIfNeeded s) _).trans hfiles,
      hidx2, idxOk_mapInsert htmp rfl⟩

/-- A successful WriteTombstone preserves the invariant. -/
theorem inv_WriteTombstone {s t : WalState} {idx : Nat}
    (h : Inv s) (hw : WriteTombstone s idx = Except.ok t) : Inv t := by
  unfold WriteTombstone at hw
  rcases hm : (mapLookup s.tmpIndex idx).orElse (fun _ => mapLookup s.index idx)
    with _ | old
  · rw [hm] at hw
    simp only [Except.ok.injEq] at hw
    subst hw
    exact h
  · rw [hm] at hw
    simp only [Except.ok.injEq] at hw
    subst hw
    obtain ⟨hmax, hseg, hfiles, hidx2, htmp⟩ := inv_rotateIfNeeded h
    exact ⟨hmax, hseg, (appendActive_files_fst (rotateIfNeeded s) _).trans hfiles,
      idxOk_mapErase hidx2 idx, idxOk_mapInsert htmp rfl⟩

/-- Every reachable state satisfies the invariant. -/
theorem reachable_inv {s : WalState} (h : Reachable s) : Inv s := by
  induction h with
  | init thr maxSeg hthr hmax => exact inv_freshState hthr hmax
  | write idx key value hr hw ih => exact inv_Write ih hw
  | tombstone idx hr hw ih => exact inv_WriteTombstone ih hw

/-- Claim C1 (code bug, evaluated at the failing input): after writing
index 5 to a fresh log the index is present in tmpIndex and Get finds it,
yet a second Write of the same index 5 does not return the already-exists
error: it is accepted, appends the record to the active segment file a
second time and bumps lastIndex again, because Write consults only the
main index map and never tmpIndex. -/
theorem claim1_duplicate_in_tmpIndex_accepted :
    Write (freshState 10 5) 5 keyBytes valBytes = Except.ok afterFirstWrite ∧
    mapLookup afterFirstWrite.tmpIndex 5 = some rec5 ∧
    Get afterFirstWrite 5 = some (keyBytes, valBytes) ∧
    Write afterFirstWrite 5 keyBytes valBytes = Except.ok afterSecondWrite ∧
    afterSecondWrite ≠ afterFirstWrite := by
  refine ⟨rfl, rfl, rfl, rfl, ?_⟩
  decide

/-- Claim C2 (code bug, evaluated at the failing input): writing the
single record with idx 5 on a fresh empty log leaves CurrentIndex at 1,
not 5, because Write bumps lastIndex by one instead of advancing it to
max(lastIndex, idx).  The recomputation NewWAL itself performs over the
stored records yields 5, so closing and reopening this log would change
CurrentIndex from 1 to 5. -/
theorem claim2_lastIndex_add_one_not_max :
    Write (freshState 10 5) 5 keyBytes valBytes = Except.ok afterFirstWrite ∧
    CurrentIndex afterFirstWrite = 1 ∧
    CurrentIndex afterFirstWrite ≠ 5 ∧
    recoveredLastIndex afterFirstWrite = 5 := by
  refine ⟨rfl, rfl, ?_, rfl⟩
  decide

/-- Claim C3: at the top of a write, a rotation is performed (the segment
counter advances) exactly when the record count of the active segment,
the size of tmpIndex, has reached segments_threshold; the statement holds
with the global index map replaced by an arbitrary map I, so the decision
does not depend on the size of the index. -/
theorem claim3_rotation_predicate (s : WalState) (I : IndexMap) :
    (rotateIfNeeded { s with index := I }).segmentsNumber =
        s.segmentsNumber + 1 ↔
      s.segmentsThreshold ≤ s.tmpIndex.length := by
  unfold rotateIfNeeded
  by_cases hthr : s.segmentsThreshold ≤ s.tmpIndex.length
  · rw [if_pos hthr]
    by_cases hev : s.maxSegments ≤ s.segmentsNumber
    · rw [if_pos hev]
      simp [openNewSegment, removeOldestSegment, hthr]
    · rw [if_neg hev]
      simp [openNewSegment, hthr]
  · rw [if_neg hthr]
    constructor
    · intro habs
      have habs' : s.segmentsNumber = s.segmentsNumber + 1 := habs
      omega
    · intro habs
      exact absurd habs hthr

/-- Claim C4 counterexample: in the concrete pre-eviction state, index 10
is bound in the in-memory index and its record lives in segment file 1,
which is not the eviction target (ordinal 0) and is still on disk after
the eviction; yet after removeOldestSegment the binding for 10 is gone,
refuting that eviction removes exactly the evicted segment's keys. -/
theorem claim4_counterexample :
    mapLookup evictionState.index 10 = some recInSeg1 ∧
    oldestSegmentOrdinal evictionState = 0 ∧
    (1, [recInSeg1]) ∈ evictionState.files ∧
    (1, [recInSeg1]) ∈ (removeOldestSegment evictionState).files ∧
    mapLookup (removeOldestSegment evictionState).index 10 = none := by
  decide

/-- Claim C4 amended: eviction does not subtract exactly the evicted
segment's keys from the index; it replaces the in-memory index wholesale:
after removeOldestSegment a key is bound in index iff it was bound in
tmpIndex, tmpIndex becomes empty, and exactly the file with the oldest
ordinal is unlinked. -/
theorem claim4_eviction_replaces_index (s : WalState) (k : Nat) :
    mapLookup (removeOldestSegment s).index k = mapLookup s.tmpIndex k ∧
    (removeOldestSegment s).tmpIndex = [] ∧
    (∀ f, f ∈ (removeOldestSegment s).files ↔
      f ∈ s.files ∧ f.1 ≠ oldestSegmentOrdinal s) := by
  refine ⟨rfl, rfl, ?_⟩
  intro f
  simp [removeOldestSegment, List.mem_filter]

/-- Claim C5: the record checksum computed by calculateChecksum is the
CRC-32 (IEEE polynomial) of the concatenation of the 8 little-endian
bytes of Idx, the raw key bytes and the raw value bytes; the stored
Checksum field is excluded from the hash input; and verifyChecksum passes
exactly when the stored field equals that recomputed value. -/
theorem claim5_checksum_canonical (m : Msg) :
    Msg.calculateChecksum m =
      crc32IEEE (idxLEBytes m.Idx ++ m.Key ++ m.Value) ∧
    (∀ c, Msg.calculateChecksum (Msg.mk m.Idx m.Key m.Value c) =
      Msg.calculateChecksum m) ∧
    (Msg.verifyChecksum m = true ↔
      m.Checksum = crc32IEEE (idxLEBytes m.Idx ++ m.Key ++ m.Value)) := by
  have hc : Msg.calculateChecksum m =
      crc32IEEE (idxLEBytes m.Idx ++ m.Key ++ m.Value) := by
    simp [Msg.calculateChecksum, crc32IEEE, crcUpdate_append]
  refine ⟨hc, fun c => rfl, ?_⟩
  rw [Msg.verifyChecksum, beq_iff_eq,
    show (Msg.mk m.Idx m.Key m.Value 0).calculateChecksum =
      Msg.calculateChecksum m from rfl, hc]

/-- Claim C8: loading a segment whose byte contents exhibit a checksum
mismatch, a decode error or a truncated trailing record returns a fatal
error; the load never returns an index map built from only the records
preceding the corruption. -/
theorem claim8_load_fatal {d : SegmentData}
    (h : d.checksumOk = false ∨ d.tail ≠ DecodeTail.eof) :
    ∃ e, loadSegment d = Except.error e := by
  by_cases hc : d.checksumOk = true
  · have htail : d.tail ≠ DecodeTail.eof := by
      rcases h with h | h
      · rw [h] at hc; exact absurd hc (by decide)
      · exact h
    refine ⟨WalErr.errDecode, ?_⟩
    unfold loadSegment
    rw [if_pos hc]
    unfold loadIndexes
    cases ht : d.tail
    · exact absurd ht htail
    · rfl
    · rfl
  · refine ⟨WalErr.errChecksum, ?_⟩
    unfold loadSegment
    rw [if_neg hc]

/-- Witness for C8: a segment with a truncated trailing record and a
matching sidecar checksum is rejected by loadSegment. -/
theorem claim8_load_fatal_witness :
    ∃ e, loadSegment truncatedSegment = Except.error e :=
  claim8_load_fatal (Or.inr (by decide))

/-- Claim C6: in every state reachable from a fresh open by successful
writes, at most max_segments segment files are live, and every live file
ordinal lies in the window from segments_number - max_segments to
segments_number - 1; every older ordinal has been unlinked. -/
theorem claim6_retention_window {s : WalState} (h : Reachable s) :
    s.files.length ≤ s.maxSegments ∧
    ∀ f ∈ s.files,
      s.segmentsNumber - s.maxSegments ≤ f.1 ∧ f.1 < s.segmentsNumber := by
  obtain ⟨hmax, hseg, hfiles, -, -⟩ := reachable_inv h
  have hlen : s.files.length = min s.segmentsNumber s.maxSegments := by
    have hmapped := congrArg List.length hfiles
    simpa using hmapped
  constructor
  · rw [hlen]
    exact Nat.min_le_right _ _
  · intro f hf
    have hmem : f.1 ∈ List.range' (s.segmentsNumber - s.maxSegments)
        (min s.segmentsNumber s.maxSegments) := by
      rw [← hfiles]
      exact List.mem_map_of_mem Prod.fst hf
    have hb := List.mem_range'_1.mp hmem
    rcases Nat.le_total s.segmentsNumber s.maxSegments with hcase | hcase
    · rw [Nat.min_eq_left hcase] at hb
      omega
    · rw [Nat.min_eq_right hcase] at hb
      omega

/-- Witness for C6: the reachable state after one write on a fresh log
with threshold 10 and cap 5 satisfies the retention bound and window. -/
theorem claim6_retention_window_witness :
    afterFirstWrite.files.length ≤ afterFirstWrite.maxSegments ∧
    ∀ f ∈ afterFirstWrite.files,
      afterFirstWrite.segmentsNumber - afterFirstWrite.maxSegments ≤ f.1 ∧
      f.1 < afterFirstWrite.segmentsNumber :=
  claim6_retention_window
    (Reachable.write 5 keyBytes valBytes
      (Reachable.init 10 5 (by decide) (by decide)) rfl)

/-- Claim C7: the iterator yields exactly the records of the union of the
index and tmpIndex maps (a permutation of the records of the two maps
concatenated), in strictly ascending Idx order, hence with no duplicate
Idx values.  The hypotheses are the map well-formedness the Go runtime
guarantees: distinct keys within each map, key disjointness between the
maps, and records keyed by their own Idx. -/
theorem claim7_iterator_exact_sorted (s : WalState)
    (h1 : keysNodup s.index) (h2 : keysNodup s.tmpIndex)
    (hd : ∀ q ∈ s.tmpIndex, mapLookup s.index q.1 = none)
    (hi1 : IdxOkMap s.index) (hi2 : IdxOkMap s.tmpIndex) :
    (Iterator s).Perm ((s.index ++ s.tmpIndex).map Prod.snd) ∧
    (Iterator s).Pairwise (fun a b => a.Idx < b.Idx) := by
  have hu : mapUnion s.index s.tmpIndex = s.index ++ s.tmpIndex :=
    mapUnion_eq_append s.tmpIndex s.index h2 hd
  have hperm : (Iterator s).Perm ((s.index ++ s.tmpIndex).map Prod.snd) := by
    unfold Iterator
    rw [hu]
    exact perm_sortByIdx _
  have hle : (Iterator s).Pairwise (fun a b => a.Idx ≤ b.Idx) :=
    pairwise_sortByIdx _
  have hkeysnodup : ((s.index ++ s.tmpIndex).map Prod.fst).Nodup := by
    rw [List.map_append]
    refine List.Nodup.append h1 h2 ?_
    intro a ha hb
    rcases List.mem_map.mp hb with ⟨q, hq, rfl⟩
    have hnone := hd q hq
    rw [mapLookup_eq_none] at hnone
    exact hnone ha
  have hidxmap : ((s.index ++ s.tmpIndex).map Prod.snd).map (fun v => v.Idx) =
      (s.index ++ s.tmpIndex).map Prod.fst := by
    rw [List.map_map]
    apply List.map_congr_left
    intro p hp
    rcases List.mem_append.mp hp with hp' | hp'
    · exact hi1 p hp'
    · exact hi2 p hp'
  have hnodupIdx : ((Iterator s).map (fun v => v.Idx)).Nodup := by
    have hpm := hperm.map (fun v : Msg => v.Idx)
    rw [hpm.nodup_iff, hidxmap]
    exact hkeysnodup
  have hne : (Iterator s).Pairwise (fun a b => a.Idx ≠ b.Idx) :=
    List.pairwise_map.mp hnodupIdx
  exact ⟨hperm, (hle.and hne).imp (fun hab => Nat.lt_of_le_of_ne hab.1 hab.2)⟩

/-- Witness for C7: on a concrete state with two closed-segment records
and one active-segment record, the iterator is a permutation of the union
and strictly ascending in Idx. -/
theorem claim7_iterator_exact_sorted_witness :
    (Iterator iterState).Perm
      ((iterState.index ++ iterState.tmpIndex).map Prod.snd) ∧
    (Iterator iterState).Pairwise (fun a b => a.Idx < b.Idx) :=
  claim7_iterator_exact_sorted iterState (by decide) (by decide) (by decide)
    (by decide) (by decide)

/-- After a tombstone write the index map no longer binds idx. -/
theorem tombstoneResult_index (s : WalState) (idx : Nat) (key : List Nat) :
    mapLookup (tombstoneResult s idx key).index idx = none :=
  mapLookup_mapErase_self _ idx

/-- After a tombstone write tmpIndex binds idx to the tombstone record. -/
theorem tombstoneResult_tmpIndex (s : WalState) (idx : Nat) (key : List Nat) :
    mapLookup (tombstoneResult s idx key).tmpIndex idx =
      some (Msg.mk idx key tombstoneBytes
        (Msg.calculateChecksum (Msg.mk idx key tombstoneBytes 0))) :=
  mapLookup_mapInsert_self _ idx _

/-- After a tombstone write Get returns the original key with the
tombstone value. -/
theorem tombstoneResult_Get (s : WalState) (idx : Nat) (key : List Nat) :
    Get (tombstoneResult s idx key) idx = some (key, tombstoneBytes) := by
  unfold Get
  rw [tombstoneResult_index, tombstoneResult_tmpIndex]

/-- Claim C9: when idx maps to an existing record (looked up first in
tmpIndex, then in index) with key K, WriteTombstone succeeds, Get then
returns K paired with the literal tombstone bytes, idx is removed from
the index map and the tombstone record is installed in tmpIndex; when idx
was never written, WriteTombstone succeeds, changes nothing (so it makes
no I/O) and Get still reports the index as absent. -/
theorem claim9_write_tombstone (s : WalState) (idx : Nat) :
    (∀ m, (mapLookup s.tmpIndex idx).orElse
        (fun _ => mapLookup s.index idx) = some m →
      ∃ t, WriteTombstone s idx = Except.ok t ∧
        Get t idx = some (m.Key, tombstoneBytes) ∧
        mapLookup t.index idx = none ∧
        mapLookup t.tmpIndex idx = some (Msg.mk idx m.Key tombstoneBytes
          (Msg.calculateChecksum (Msg.mk idx m.Key tombstoneBytes 0)))) ∧
    (mapLookup s.tmpIndex idx = none → mapLookup s.index idx = none →
      WriteTombstone s idx = Except.ok s ∧ Get s idx = none) := by
  constructor
  · intro m hm
    refine ⟨tombstoneResult s idx m.Key, ?_, ?_, ?_, ?_⟩
    · unfold WriteTombstone
      rw [hm]
      rfl
    · exact tombstoneResult_Get s idx m.Key
    · exact tombstoneResult_index s idx m.Key
    · exact tombstoneResult_tmpIndex s idx m.Key
  · intro h1 h2
    have hnone : (mapLookup s.tmpIndex idx).orElse
        (fun _ => mapLookup s.index idx) = none := by
      rw [h1, h2]
      rfl
    refine ⟨?_, ?_⟩
    · unfold WriteTombstone
      rw [hnone]
    · unfold Get
      rw [h2, h1]

/-- Witness for C9: tombstoning index 3, which holds the record rec3 in
the active segment, yields a state where Get reports the tombstone, the
index map misses 3 and tmpIndex holds the tombstone record. -/
theorem claim9_write_tombstone_witness :
    ∃ t, WriteTombstone tombStartState 3 = Except.ok t ∧
      Get t 3 = some (rec3.Key, tombstoneBytes) ∧
      mapLookup t.index 3 = none ∧
      mapLookup t.tmpIndex 3 = some (Msg.mk 3 rec3.Key tombstoneBytes
        (Msg.calculateChecksum (Msg.mk 3 rec3.Key tombstoneBytes 0))) :=
  (claim9_write_tombstone tombStartState 3).1 rec3 rfl

/-- Claim C10: in every state reachable from a fresh open by successful
writes and rotations, every binding of the index map and of the tmpIndex
map stores a record whose Idx field equals the key it is stored under. -/
theorem claim10_records_keyed_by_idx {s : WalState} (h : Reachable s) :
    (∀ p ∈ s.index, p.2.Idx = p.1) ∧ (∀ p ∈ s.tmpIndex, p.2.Idx = p.1) := by
  obtain ⟨-, -, -, hidx, htmp⟩ := reachable_inv h
  exact ⟨hidx, htmp⟩

/-- Witness for C10: the reachable state after one write keys its single
tmpIndex record by its Idx field. -/
theorem claim10_records_keyed_by_idx_witness :
    (∀ p ∈ afterFirstWrite.index, p.2.Idx = p.1) ∧
    (∀ p ∈ afterFirstWrite.tmpIndex, p.2.Idx = p.1) :=
  claim10_records_keyed_by_idx
    (Reachable.write 5 keyBytes valBytes
      (Reachable.init 10 5 (by decide) (by decide)) rfl)

end Gowal
